import Mathlib

/-!
Verification of the core algorithms of django-swingtime.

Shallow embedding conventions:
* Instants (`datetime.datetime`) and durations (`datetime.timedelta`) are
  modelled as `Int` numbers of seconds (or of minutes in concrete examples;
  the algorithms only add, subtract and compare these quantities, so the
  unit is irrelevant).
* The source is Python 2; `sorted(items)` uses `AbstractOccasion.__cmp__`
  (models.py:150-151), which compares `start_time` only, and Python's
  `sorted` is a stable sort.
* Fallible Python code is modelled with `Except`/`Option`; the `while`
  loops of `create_timeslot_table` (utils.py) are modelled with explicit
  structural fuel so that every definition is executable by the kernel.
-/

namespace Swingtime

/-! ## Recurrence expansion: `AbstractEvent.add_occasions` (models.py:40-65)

The method delegates anchor generation to the external `dateutil.rrule`
library, which is not part of this repository's sources.  `rruleAnchors`
below is therefore modelled from the spec. -/

/-- Recurrence frequency (`rrule.DAILY`, `rrule.WEEKLY`, ...). -/
inductive Freq where
  | daily
  | weekly
  | monthly
  | yearly
deriving DecidableEq, Repr

/-- Nominal period of one frequency unit, in seconds.  The claims under
verification depend only on the period being positive. -/
def Freq.period : Freq → Int
  | .daily => 86400
  | .weekly => 604800
  | .monthly => 2592000
  | .yearly => 31536000

theorem Freq.period_pos (f : Freq) : 0 < f.period := by
  cases f <;> decide

/-- The `rrule_params` keyword dictionary of `add_occasions`. -/
structure RRuleParams where
  freq : Option Freq := none
  interval : Int := 1
  count : Option Int := none
  untilT : Option Int := none
deriving DecidableEq, Repr

/-- `InvalidRuleError`: the failure surfaced when the recurrence engine
rejects a malformed rule. -/
inductive RuleError where
  | invalidRule
deriving DecidableEq, Repr

/-- Modelled from the spec: the anchor sequence produced by the external
`dateutil.rrule.rrule(dtstart=start, freq=..., interval=..., count=...,
until=...)` iterator, which is not under `src/`.  Standard recurrence
semantics: anchors are `start, start+step, start+2*step, ...` with
`step = period(freq) * interval`, bounded by `count` or `until`; a rule
with `interval < 1`, or with a supplied `count < 1`, is rejected with
`InvalidRuleError`. -/
def rruleAnchors (dtstart : Int) (freq : Freq) (interval : Int)
    (count : Option Int) (untilT : Option Int) : Except RuleError (List Int) :=
  if interval < 1 then .error .invalidRule
  else
    let step := freq.period * interval
    match count with
    | some n =>
        if n < 1 then .error .invalidRule
        else .ok ((List.range n.toNat).map (fun i : Nat => dtstart + (i : Int) * step))
    | none =>
        match untilT with
        | some u =>
            if u < dtstart then .ok []
            else .ok ((List.range (((u - dtstart).toNat / step.toNat) + 1)).map
                        (fun i : Nat => dtstart + (i : Int) * step))
        | none => .ok []

/-- `AbstractEvent.add_occasions` (models.py:40-65) as a pure sequence
producer: it returns the list of `(start_time, end_time)` pairs of the
occasions it would create.  Mirrors the source: default `freq` to DAILY;
if neither `count` nor `until` is supplied, create the single occasion
`(start_time, end_time)` without touching `rrule`; otherwise emit
`(ev, ev + delta)` for each anchor `ev`. -/
def add_occasions (start_time end_time : Int) (params : RRuleParams) :
    Except RuleError (List (Int × Int)) :=
  let freq := params.freq.getD .daily
  if params.count = none ∧ params.untilT = none then
    .ok [(start_time, end_time)]
  else
    let delta := end_time - start_time
    (rruleAnchors start_time freq params.interval params.count params.untilT).map
      (fun evs => evs.map (fun ev => (ev, ev + delta)))

/-! ## Daily overlap query: `OccasionManager.daily_occasions` (models.py:94-122) -/

/-- `datetime(dt.year, dt.month, dt.day)`: midnight of day number `d`. -/
def startOfDay (d : Int) : Int := 86400 * d

/-- `start.replace(hour=23, minute=59, second=59)`. -/
def endOfDay (d : Int) : Int := startOfDay d + 86399

/-- The three-disjunct queryset filter of `daily_occasions` applied to an
occasion `(s, e)` for day `d`:
`Q(start_time__gte=start, start_time__lte=end) |
 Q(end_time__gte=start, end_time__lte=end) |
 Q(start_time__lt=start, end_time__gt=end)`. -/
def daily_occasions_filter (d s e : Int) : Bool :=
  decide ((startOfDay d ≤ s ∧ s ≤ endOfDay d) ∨
          (startOfDay d ≤ e ∧ e ≤ endOfDay d) ∨
          (s < startOfDay d ∧ e > endOfDay d))

/-! ## Settings defaults (settings.py)

The deployer-facing configuration is read through
`getattr(settings, name, default)`.  We model the situation where the
deployer supplies no `SWINGTIME_*` override, so `getattr` returns the
default — except that settings.py:19-21 *omits the call to `getattr`*
and binds `TIMESLOT_START_TIME` to the literal 3-tuple
`(settings, 'SWINGTIME_TIMESLOT_START_TIME', datetime.time(9))`. -/

/-- A small universe of the Python values appearing in settings.py. -/
inductive PyVal where
  /-- `datetime.time`, as seconds from midnight. -/
  | time (secondsFromMidnight : Int)
  /-- `datetime.timedelta`, in seconds. -/
  | delta (seconds : Int)
  | int (n : Int)
  | str (s : String)
  | tuple3 (a b c : PyVal)
  /-- the `django.conf.settings` module object. -/
  | settingsObj
deriving DecidableEq, Repr

/-- `getattr(settings, name, default)` when the deployer's settings module
defines no `SWINGTIME_*` attribute: the default is returned. -/
def getattrDefault (_obj : PyVal) (_name : String) (dflt : PyVal) : PyVal := dflt

/-- settings.py:6-8. -/
def TIMESLOT_TIME_FORMAT : PyVal :=
  getattrDefault .settingsObj "SWINGTIME_TIMESLOT_TIME_FORMAT" (.str "%I:%M %p")

/-- settings.py:13-15 (`datetime.timedelta(minutes=15)`). -/
def TIMESLOT_INTERVAL : PyVal :=
  getattrDefault .settingsObj "SWINGTIME_TIMESLOT_INTERVAL" (.delta 900)

/-- settings.py:19-21.  The source reads
`TIMESLOT_START_TIME = (settings, 'SWINGTIME_TIMESLOT_START_TIME', datetime.time(9))`
— a parenthesised 3-tuple, not a `getattr` call. -/
def TIMESLOT_START_TIME : PyVal :=
  .tuple3 .settingsObj (.str "SWINGTIME_TIMESLOT_START_TIME") (.time 32400)

/-- settings.py:30-33 (`datetime.timedelta(hours=+8)`). -/
def TIMESLOT_END_TIME_DURATION : PyVal :=
  getattrDefault .settingsObj "SWINGTIME_TIMESLOT_END_TIME_DURATION" (.delta 28800)

/-- settings.py:37. -/
def TIMESLOT_MIN_COLUMNS : PyVal :=
  getattrDefault .settingsObj "SWINGTIME_TIMESLOT_MIN_COLUMNS" (.int 4)

/-- Whether a value is a `datetime.time` instance. -/
def PyVal.isTimeVal : PyVal → Bool
  | .time _ => true
  | _ => false

/-- `datetime.combine(date, t)` (utils.py:177), which raises `TypeError`
unless `t` is a `datetime.time`; `none` models the raised error. -/
def datetimeCombine (dayStart : Int) : PyVal → Option Int
  | .time t => some (dayStart + t)
  | _ => none

/-! ## The timeslot grid builder: `create_timeslot_table` (utils.py:142-257)

An `Occasion` is reduced to its `(start_time, end_time)` pair; the grid
cells hold the index of the occasion in processing (sorted) order, which
stands for the identity of the proxy object the source allocates for it
(`proxy_class(item, colkey)`, utils.py:216). -/

/-- The `start_time`/`end_time` pair of an `Occasion` row
(models.py:130-131). -/
structure Occ where
  start_time : Int
  end_time : Int
deriving DecidableEq, Repr

instance : Inhabited Occ := ⟨⟨0, 0⟩⟩

/-- Insert `x` after every element whose `start_time` is `≤ x.start_time`.
Folding this over the input reproduces Python 2's stable `sorted(items)`
under `AbstractOccasion.__cmp__` (models.py:150-151), which compares
`start_time` only. -/
def insertByStart (x : Occ) : List Occ → List Occ
  | [] => [x]
  | y :: ys =>
      if y.start_time ≤ x.start_time then y :: insertByStart x ys
      else x :: y :: ys

/-- `sorted(items)` (utils.py:193): stable sort, ascending by `start_time`
only. -/
def sortByStart (items : List Occ) : List Occ :=
  items.foldl (fun acc x => insertByStart x acc) []

/-- One timeslot bucket (the per-row dict `{colkey: proxy}`): the cell at
list position `c` is column `c`; `none` (and any position beyond the list)
means the column key is absent from the dict. -/
abbrev Row := List (Option Nat)

/-- `timeslots`: the buckets in slot-key order; the row at list position
`k` is the bucket for slot key `dtstart + k * Δ`. -/
abbrev Grid := List Row

/-- Dict lookup `timeslot.get(colkey)` on a row. -/
def cellGet : Row → Nat → Option Nat
  | [], _ => none
  | x :: _, 0 => x
  | _ :: t, c + 1 => cellGet t c

/-- Dict assignment `timeslot[colkey] = proxy` on a row (pads absent lower
columns with `none`). -/
def setCol : Row → Nat → Option Nat → Row
  | _ :: t, 0, v => v :: t
  | [], 0, v => [v]
  | h :: t, c + 1, v => h :: setCol t c v
  | [], c + 1, v => none :: setCol [] c v

/-- `timeslots.get(rowkey)` for the row at index `k`. -/
def gridRow : Grid → Nat → Row
  | [], _ => []
  | r :: _, 0 => r
  | _ :: t, k + 1 => gridRow t k

/-- Replace the row at index `k`. -/
def setRow : Grid → Nat → Row → Grid
  | [], _, _ => []
  | _ :: t, 0, r => r :: t
  | h :: t, k + 1, r => h :: setRow t k r

/-- The cell of the grid at row index `k`, column `c`. -/
def cellAt (g : Grid) (k c : Nat) : Option Nat := cellGet (gridRow g k) c

/-- `row[colkey] = proxy`: write placement `pid` at `(k, c)`. -/
def writeCell (g : Grid) (k c pid : Nat) : Grid :=
  setRow g k (setCol (gridRow g k) c (some pid))

/-- The column search `while 1: if colkey not in timeslot ... colkey += 1`
(utils.py:212-215): index of the first free column of a row. -/
def firstFreeCol : Row → Nat
  | [] => 0
  | none :: _ => 0
  | some _ :: t => firstFreeCol t + 1

/-- The slot key of row index `k`. -/
def slotKey (dtstart Δ : Int) (k : Nat) : Int := dtstart + (k : Int) * Δ

/-- Dict lookup `timeslots.get(rowkey)` resolved to a row index: for
`0 < Δ` the keys built at utils.py:186-190 are exactly
`dtstart + k * Δ` for `k < Kp`, so `t` is a key iff `t - dtstart` is a
non-negative multiple of `Δ` whose quotient is `< Kp`. -/
def slotIndex (dtstart Δ : Int) (Kp : Nat) (t : Int) : Option Nat :=
  let d := t - dtstart
  if 0 ≤ d ∧ d.toNat % Δ.toNat = 0 ∧ d.toNat / Δ.toNat < Kp then
    some (d.toNat / Δ.toNat)
  else none

/-- `rowkey = item.start_time if item.start_time > dtstart else dtstart`
(utils.py:198-201). -/
def rowkeyOf (dtstart : Int) (it : Occ) : Int :=
  if dtstart < it.start_time then it.start_time else dtstart

/-- Row index at which an occasion is placed (the `timeslots.get(rowkey)`
lookup at utils.py:203). -/
def itemSlot (dtstart Δ : Int) (Kp : Nat) (it : Occ) : Option Nat :=
  slotIndex dtstart Δ Kp (rowkeyOf dtstart it)

/-- State of the fill pass.  `wroteOccupied` and `wroteOther` are
instrumentation only (they never influence the grid): they record whether
some write found its target cell already occupied (by anything, resp. by a
different placement). -/
structure FillState where
  grid : Grid
  wroteOccupied : Bool
  wroteOther : Bool
deriving DecidableEq, Repr

/-- An instrumented cell write. -/
def writeChecked (st : FillState) (k c pid : Nat) : FillState :=
  let old := cellAt st.grid k c
  { grid := writeCell st.grid k c pid
    wroteOccupied := st.wroteOccupied || old.isSome
    wroteOther := st.wroteOther || (old.isSome && old ≠ some pid) }

/-- The continuation loop `while current < item.end_time: ...`
(utils.py:219-229), with structural fuel.  The loop writes the same proxy
into column `c` of consecutive rows starting at the placement row, while
the current slot key is `< end_time` and the row exists (`k < Kp`); calling
it with fuel `Kp + 1` is enough for it to run to completion. -/
def fillRun (dtstart Δ : Int) (Kp : Nat) (endT : Int) (pid c : Nat) :
    Nat → Nat → FillState → FillState
  | _, 0, st => st
  | k, fuel + 1, st =>
      if slotKey dtstart Δ k < endT ∧ k < Kp then
        fillRun dtstart Δ Kp endT pid c (k + 1) fuel (writeChecked st k c pid)
      else st

/-- Processing of one occasion (the body of `for item in sorted(items)`,
utils.py:193-232): skip it if it ended before the grid starts; clamp its
row key; drop it if the key is not a slot key; otherwise place it in the
first free column and run the continuation loop from its own row. -/
def placeItem (dtstart Δ : Int) (Kp : Nat) (st : FillState) (pid : Nat)
    (it : Occ) : FillState :=
  if it.end_time ≤ dtstart then st
  else
    match itemSlot dtstart Δ Kp it with
    | none => st
    | some r =>
        let c := firstFreeCol (gridRow st.grid r)
        fillRun dtstart Δ Kp it.end_time pid c r (Kp + 1)
          (writeChecked st r c pid)

/-- `for item in sorted(items)` with a running index: item number `pid` of
the sorted order is placed as placement `pid`. -/
def fillFrom (dtstart Δ : Int) (Kp : Nat) : Nat → List Occ → FillState → FillState
  | _, [], st => st
  | pid, it :: rest, st =>
      fillFrom dtstart Δ Kp (pid + 1) rest (placeItem dtstart Δ Kp st pid it)

/-- The whole fill pass of `create_timeslot_table` over `Kp` initially
empty timeslot buckets. -/
def fillAll (dtstart Δ : Int) (Kp : Nat) (items : List Occ) : FillState :=
  fillFrom dtstart Δ Kp 0 (sortByStart items) ⟨List.replicate Kp [], false, false⟩

/-- `len(x)` for a timeslot bucket: the number of occupied columns. -/
def rowLen (r : Row) : Nat := r.countP (fun o => o.isSome)

/-- Number of timeslot keys generated by the loop at utils.py:186-190 for
`0 < Δ` and span `0 ≤ etd`: keys `dtstart + k * Δ` while `≤ dtstart + etd`,
hence `etd / Δ + 1` of them (inclusive upper boundary). -/
def numSlots (etd Δ : Int) : Nat := etd.toNat / Δ.toNat + 1

/-- `create_timeslot_table(dt, items, start_time, end_time_delta,
time_delta, min_columns)` (utils.py:142-257) for `0 < Δ` and
`0 ≤ etd`, with `dtstart = combine(dt.date(), start_time)` already
computed: returns the chronological table of `(slot key, padded row)`
pairs, each row padded with empty cells to
`max(min_columns, max(len(bucket) for bucket in timeslots))` columns. -/
def create_timeslot_table (dtstart etd Δ : Int) (min_columns : Nat)
    (items : List Occ) : List (Int × Row) :=
  let Kp := numSlots etd Δ
  let st := fillAll dtstart Δ Kp items
  let column_lens := st.grid.map rowLen
  let column_count := max min_columns (column_lens.foldl max 0)
  (List.range Kp).map fun k =>
    (slotKey dtstart Δ k, (List.range column_count).map fun c => cellAt st.grid k c)

/-- The raw timeslot-key generation loop `n = dtstart; while n <= dtend:
timeslots[n] = {}; n += time_delta` (utils.py:186-190), with explicit
fuel; `none` means the fuel was exhausted with the loop still running. -/
def timeslotKeysLoop (Δ dtend : Int) : Nat → Int → Option (List Int)
  | 0, _ => none
  | fuel + 1, n =>
      if n ≤ dtend then
        match timeslotKeysLoop Δ dtend fuel (n + Δ) with
        | none => none
        | some ks => some (n :: ks)
      else some []

/-- The key-generation loop never terminates from start value `dtstart`:
no amount of fuel completes it. -/
def timeslotLoopDiverges (Δ dtstart dtend : Int) : Prop :=
  ∀ fuel, timeslotKeysLoop Δ dtend fuel dtstart = none

/-- Number of loop iterations needed by `timeslotKeysLoop` when it does
terminate (`numSlots` keys plus the final failing test). -/
def numSlotsFuel (etd Δ : Int) : Nat := numSlots etd Δ + 1

/-- Placement `pid` occupies exactly the cells of column `c` in the
contiguous row range `[r, b)`. -/
def Placed (g : Grid) (pid c r b : Nat) : Prop :=
  ∀ k col, cellAt g k col = some pid ↔ (col = c ∧ r ≤ k ∧ k < b)

/-- Placement `pid` occupies no cell at all. -/
def Dropped (g : Grid) (pid : Nat) : Prop :=
  ∀ k col, cellAt g k col ≠ some pid

/-- Every column below `c` of row `r` is occupied by some other placement. -/
def LowestCol (g : Grid) (pid c r : Nat) : Prop :=
  ∀ c', c' < c → ∃ q, q ≠ pid ∧ cellAt g r c' = some q

/-- First cell holding `pid` in a row, scanning columns upward (used to
express which column a placement received). -/
def findCol : Row → Nat → Option Nat
  | [], _ => none
  | x :: t, pid => if x = some pid then some 0 else (findCol t pid).map (· + 1)

/-- Search the rows `k, k+1, ...` (with fuel) for the first cell holding
`pid`. -/
def findCellAux (g : Grid) (pid : Nat) : Nat → Nat → Option (Nat × Nat)
  | _, 0 => none
  | k, fuel + 1 =>
      match findCol (gridRow g k) pid with
      | some c => some (k, c)
      | none => findCellAux g pid (k + 1) fuel

/-- Row and column of the first (hence, for this algorithm, the starting)
cell of a placement, if any. -/
def findCell (g : Grid) (pid : Nat) : Option (Nat × Nat) :=
  findCellAux g pid 0 g.length

/-- How one processing step may change the grid: cells are either left
unchanged or go from empty to holding the placement `pid` being
processed. -/
def StepSafe (g g' : Grid) (pid : Nat) : Prop :=
  g'.length = g.length ∧
  ∀ k col, cellAt g' k col = cellAt g k col ∨
    (cellAt g k col = none ∧ cellAt g' k col = some pid)

/-- Invariant of the fill pass after the first `i` occasions of the
sorted list `L` have been processed: the grid keeps its `Kp` rows; every
cell holds a placement `< i`; every processed placement is either dropped
or occupies a contiguous single-column run starting at its computed slot
row, below which every lower column of that row is occupied by someone
else; and of two placements starting in the same row, the one processed
earlier holds the lower column. -/
def Inv (dtstart Δ : Int) (Kp : Nat) (L : List Occ) (i : Nat) (g : Grid) : Prop :=
  g.length = Kp ∧
  (∀ k col pid, cellAt g k col = some pid → pid < i) ∧
  (∀ pid, pid < i →
    Dropped g pid ∨
    ∃ r c b, itemSlot dtstart Δ Kp (L.getD pid default) = some r ∧
      r < b ∧ b ≤ Kp ∧ Placed g pid c r b ∧ LowestCol g pid c r) ∧
  (∀ pid pid' c r b c' r' b', pid < pid' → pid' < i →
    Placed g pid c r b → r < b → Placed g pid' c' r' b' → r' < b' → r = r' →
    c < c')

/-! ## Theorems -/

/-- C3: for every occasion with `start <= end` and every day window
`[startOfDay d, endOfDay d]`, the three-disjunct filter of
`daily_occasions` selects the occasion iff
`start <= windowEnd ∧ end >= windowStart`. -/
theorem daily_occasions_overlap_iff (d s e : Int) (h : s ≤ e) :
    daily_occasions_filter d s e = true ↔ (s ≤ endOfDay d ∧ startOfDay d ≤ e) := by
  simp only [daily_occasions_filter, decide_eq_true_eq, startOfDay, endOfDay]
  omega

theorem daily_occasions_overlap_iff_witness :
    (5 : Int) ≤ 10 ∧
      (daily_occasions_filter 0 5 10 = true ↔
        ((5 : Int) ≤ endOfDay 0 ∧ startOfDay 0 ≤ 10)) :=
  ⟨by decide, daily_occasions_overlap_iff 0 5 10 (by decide)⟩

/-- C5: for a degenerate rule (no `count`, no `until`), `add_occasions`
creates exactly the single occasion `(start_time, end_time)`, without
invoking the recurrence machinery (in particular, independently of
`interval`). -/
theorem add_occasions_degenerate (s e : Int) (params : RRuleParams)
    (hc : params.count = none) (hu : params.untilT = none) :
    add_occasions s e params = .ok [(s, e)] := by
  simp [add_occasions, hc, hu]

theorem add_occasions_degenerate_witness :
    ({ interval := 0 } : RRuleParams).count = none ∧
      ({ interval := 0 } : RRuleParams).untilT = none ∧
      add_occasions 0 10 { interval := 0 } = .ok [(0, 10)] :=
  ⟨rfl, rfl, add_occasions_degenerate 0 10 { interval := 0 } rfl rfl⟩

/-- `rruleAnchors` on a valid rule with `count = n`. -/
theorem rruleAnchors_count (dtstart : Int) (f : Freq) (i : Int) (n : Int)
    (u : Option Int) (hi : 1 ≤ i) (hn : 1 ≤ n) :
    rruleAnchors dtstart f i (some n) u =
      .ok ((List.range n.toNat).map (fun j : Nat => dtstart + (j : Int) * (f.period * i))) := by
  simp only [rruleAnchors, if_neg (show ¬ i < 1 by omega), if_neg (show ¬ n < 1 by omega)]

/-- C4: for every valid rule carrying `count = n` (`n ≥ 1`,
`interval ≥ 1`), `add_occasions` creates exactly `n` occasions, each of
duration `end_time - start_time`, with non-decreasing start times. -/
theorem add_occasions_count_spec (s e : Int) (params : RRuleParams) (n : Int)
    (hc : params.count = some n) (hn : 1 ≤ n) (hi : 1 ≤ params.interval) :
    ∃ l, add_occasions s e params = .ok l ∧ l.length = n.toNat ∧
      (∀ p ∈ l, p.2 - p.1 = e - s) ∧ l.Pairwise (fun p q => p.1 ≤ q.1) := by
  have hstep : 0 ≤ (params.freq.getD .daily).period * params.interval := by
    have := Freq.period_pos (params.freq.getD .daily)
    nlinarith
  refine ⟨((List.range n.toNat).map
      (fun j : Nat =>
        (s + (j : Int) * ((params.freq.getD .daily).period * params.interval),
         s + (j : Int) * ((params.freq.getD .daily).period * params.interval)
           + (e - s)))), ?_, ?_, ?_, ?_⟩
  · have hdeg : ¬(params.count = none ∧ params.untilT = none) := by
      rw [hc]; simp
    simp only [add_occasions, if_neg hdeg, hc,
      rruleAnchors_count s (params.freq.getD .daily) params.interval n params.untilT hi hn,
      Except.map, List.map_map]
    rfl
  · simp
  · intro p hp
    simp only [List.mem_map, List.mem_range] at hp
    obtain ⟨j, _, rfl⟩ := hp
    ring
  · rw [List.pairwise_map]
    refine (List.pairwise_lt_range n.toNat).imp ?_
    intro a b hab
    have hab' : (a : Int) ≤ (b : Int) := by exact_mod_cast Nat.le_of_lt hab
    simp only []
    nlinarith

theorem add_occasions_count_spec_witness :
    ({ count := some 3 } : RRuleParams).count = some 3 ∧ (1 : Int) ≤ 3 ∧
      (1 : Int) ≤ ({ count := some 3 } : RRuleParams).interval ∧
      ∃ l, add_occasions 0 10 { count := some 3 } = .ok l ∧
        l.length = (3 : Int).toNat ∧ (∀ p ∈ l, p.2 - p.1 = 10 - 0) ∧
        l.Pairwise (fun p q => p.1 ≤ q.1) :=
  ⟨rfl, by decide, by decide,
    add_occasions_count_spec 0 10 { count := some 3 } 3 rfl (by decide) (by decide)⟩

/-- C6 (counterexample): a rule with `interval = 0` but neither `count`
nor `until` does NOT fail — the degenerate path creates the single
occasion before any validation can happen, so "expansion fails whenever
interval < 1" is false as stated. -/
theorem add_occasions_degenerate_skips_validation :
    add_occasions 0 10 { interval := 0 } = .ok [(0, 10)] := by
  simp [add_occasions]

/-- C6 (amended): whenever the rule supplies `count` or `until` (so the
recurrence engine actually runs) and `interval < 1`, or whenever a
supplied `count` is `< 1`, expansion fails with `InvalidRuleError` and no
occasion is created. -/
theorem add_occasions_invalid_rule (s e : Int) (params : RRuleParams)
    (hne : params.count ≠ none ∨ params.untilT ≠ none)
    (hbad : params.interval < 1 ∨ ∃ n, params.count = some n ∧ n < 1) :
    add_occasions s e params = .error .invalidRule := by
  have hdeg : ¬(params.count = none ∧ params.untilT = none) := by tauto
  simp only [add_occasions, if_neg hdeg]
  rcases hbad with hi | ⟨n, hc, hn⟩
  · simp [rruleAnchors, if_pos hi, Except.map]
  · simp only [rruleAnchors, hc]
    by_cases hi : params.interval < 1
    · simp [if_pos hi, Except.map]
    · simp [if_neg hi, if_pos hn, Except.map]

theorem add_occasions_invalid_rule_witness :
    (({ count := some 0 } : RRuleParams).count ≠ none ∨
        ({ count := some 0 } : RRuleParams).untilT ≠ none) ∧
      (({ count := some 0 } : RRuleParams).interval < 1 ∨
        ∃ n, ({ count := some 0 } : RRuleParams).count = some n ∧ n < 1) ∧
      add_occasions 0 10 { count := some 0 } = .error .invalidRule :=
  ⟨Or.inl (by decide), Or.inr ⟨0, rfl, by decide⟩,
    add_occasions_invalid_rule 0 10 { count := some 0 }
      (Or.inl (by decide)) (Or.inr ⟨0, rfl, by decide⟩)⟩

/-- C7 (counterexample): with `slotInterval = 0` (and the default
9:00–10:00-style window 540 ≤ 600), the slot-key generation loop of
`create_timeslot_table` never terminates — no `InvalidConfigError` (no
validation of any kind) is ever raised before grid rows are built. -/
theorem timeslot_loop_diverges_at_zero : timeslotLoopDiverges 0 540 600 := by
  intro fuel
  induction fuel with
  | zero => rfl
  | succ fuel ih =>
      simp only [timeslotKeysLoop, if_pos (by decide : (540 : Int) ≤ 600)]
      rw [show (540 : Int) + 0 = 540 from rfl, ih]

/-- C7 (amended): the grid builder performs no validation of
`slotInterval` at all; for every non-positive `slotInterval` (and any
window with `gridStart ≤ gridEnd`) the slot-key generation loop never
terminates, so neither grid rows nor an error are ever produced. -/
theorem timeslot_loop_diverges_nonpositive (Δ dtstart dtend : Int)
    (hΔ : Δ ≤ 0) (hle : dtstart ≤ dtend) : timeslotLoopDiverges Δ dtstart dtend := by
  have key : ∀ fuel n, n ≤ dtend → timeslotKeysLoop Δ dtend fuel n = none := by
    intro fuel
    induction fuel with
    | zero => intro n _; rfl
    | succ fuel ih =>
        intro n h
        simp only [timeslotKeysLoop, if_pos h]
        rw [ih (n + Δ) (by omega)]
  exact fun fuel => key fuel dtstart hle

theorem timeslot_loop_diverges_nonpositive_witness :
    (0 : Int) ≤ 0 ∧ (0 : Int) ≤ 0 ∧ timeslotLoopDiverges 0 0 0 :=
  ⟨by decide, by decide, timeslot_loop_diverges_nonpositive 0 0 0 (by decide) (by decide)⟩

theorem slotKey_succ (dtstart Δ : Int) (k : Nat) :
    slotKey dtstart Δ (k + 1) = slotKey dtstart Δ k + Δ := by
  unfold slotKey
  push_cast
  ring

/-- For a positive interval and a non-negative span, the source's
key-generation loop terminates and produces exactly the slot keys
`dtstart, dtstart + Δ, ..., dtstart + (numSlots - 1) * Δ` used by the
embedding `create_timeslot_table`: the translation of the `while` loop at
utils.py:186-190 into `numSlots`/`slotKey` is faithful. -/
theorem timeslotKeysLoop_pos (Δ dtstart etd : Int) (hΔ : 0 < Δ) (hetd : 0 ≤ etd) :
    timeslotKeysLoop Δ (dtstart + etd) (numSlotsFuel etd Δ) dtstart =
      some ((List.range (numSlots etd Δ)).map (slotKey dtstart Δ)) := by
  have hΔn : ((Δ.toNat : Int)) = Δ := Int.toNat_of_nonneg hΔ.le
  have hΔn0 : 0 < Δ.toNat := by omega
  set Kp := numSlots etd Δ with hKp
  set K := etd.toNat / Δ.toNat with hK
  have hKpK : Kp = K + 1 := by rw [hKp, numSlots, hK]
  -- the top slot key `dtstart + Kp * Δ` falls beyond the window ...
  have htop : ¬ slotKey dtstart Δ Kp ≤ dtstart + etd := by
    have hdm := Nat.div_add_mod etd.toNat Δ.toNat
    have hmlt := Nat.mod_lt etd.toNat hΔn0
    have hlt : etd.toNat < Δ.toNat * (K + 1) := by
      rw [Nat.mul_add, Nat.mul_one, hK]
      omega
    have hcast : etd < ((Δ.toNat * (K + 1) : Nat) : Int) := by
      have h1 : etd = ((etd.toNat : Nat) : Int) := (Int.toNat_of_nonneg hetd).symm
      rw [h1]
      exact_mod_cast hlt
    have hrw : ((Δ.toNat * (K + 1) : Nat) : Int) = ((K + 1 : Nat) : Int) * Δ := by
      push_cast
      rw [hΔn]
      ring
    rw [hrw] at hcast
    rw [slotKey, hKpK]
    intro hcon
    linarith [hcast]
  -- ... while every key strictly below it lies inside the window
  have hin : ∀ j, j < Kp → slotKey dtstart Δ j ≤ dtstart + etd := by
    intro j hj
    have hjK : j ≤ K := by omega
    have h1 : j * Δ.toNat ≤ K * Δ.toNat := Nat.mul_le_mul_right Δ.toNat hjK
    have h2 : K * Δ.toNat ≤ etd.toNat := by
      rw [hK]
      exact Nat.div_mul_le_self etd.toNat Δ.toNat
    have hcast : ((j * Δ.toNat : Nat) : Int) ≤ etd := by
      calc ((j * Δ.toNat : Nat) : Int) ≤ ((etd.toNat : Nat) : Int) := by
            exact_mod_cast le_trans h1 h2
        _ = etd := Int.toNat_of_nonneg hetd
    have hrw : ((j * Δ.toNat : Nat) : Int) = ((j : Nat) : Int) * Δ := by
      push_cast
      rw [hΔn]
    rw [hrw] at hcast
    rw [slotKey]
    linarith [hcast]
  -- the loop, iterated from key index `Kp - m`
  have main : ∀ m, m ≤ Kp →
      timeslotKeysLoop Δ (dtstart + etd) (m + 1) (slotKey dtstart Δ (Kp - m)) =
        some ((List.range' (Kp - m) m).map (slotKey dtstart Δ)) := by
    intro m
    induction m with
    | zero =>
        intro _
        rw [timeslotKeysLoop, if_neg (by simpa using htop)]
        simp
    | succ m ih =>
        intro hm
        have hj : Kp - (m + 1) < Kp := by omega
        rw [timeslotKeysLoop, if_pos (hin _ hj)]
        have hstep : slotKey dtstart Δ (Kp - (m + 1)) + Δ =
            slotKey dtstart Δ (Kp - m) := by
          rw [show Kp - m = (Kp - (m + 1)) + 1 by omega, slotKey_succ]
        rw [hstep, ih (by omega)]
        rw [show Kp - m = (Kp - (m + 1)) + 1 by omega]
        rw [List.range'_succ]
        simp
  have hfinal := main Kp (le_refl Kp)
  rw [Nat.sub_self] at hfinal
  rw [show slotKey dtstart Δ 0 = dtstart by rw [slotKey]; push_cast; ring] at hfinal
  rw [numSlotsFuel, ← hKp, hfinal, List.range_eq_range']

/-- C8: of the documented defaults, `slotInterval = 15 min`,
`spanDuration = 8 h`, `minColumns = 4` and `timeFormat = "%I:%M %p"` hold,
but `TIMESLOT_START_TIME` is NOT the time-of-day 09:00: settings.py:19-21
omits the `getattr` call, so the module binds the literal 3-tuple
`(settings, 'SWINGTIME_TIMESLOT_START_TIME', datetime.time(9))`, and
`datetime.combine(dt.date(), start_time)` at utils.py:177 raises
`TypeError` — building a grid with all defaults fails. -/
theorem settings_defaults_start_time_tuple :
    TIMESLOT_INTERVAL = .delta 900 ∧
      TIMESLOT_END_TIME_DURATION = .delta 28800 ∧
      TIMESLOT_MIN_COLUMNS = .int 4 ∧
      TIMESLOT_TIME_FORMAT = .str "%I:%M %p" ∧
      TIMESLOT_START_TIME.isTimeVal = false ∧
      datetimeCombine 0 TIMESLOT_START_TIME = none :=
  ⟨rfl, rfl, rfl, rfl, rfl, rfl⟩

/-- C1 (counterexample): in the 09:00-start, 15-minute, 1-hour scenario
(minutes 540..600) with occasions `[540,570]` and `[555,600]`, the final
row (key 600 = 10:00) is entirely empty: the continuation loop
`while current < item.end_time` stops strictly before an end that falls
on a slot key, so occasion 2 is NOT rendered in the 10:00 slot. -/
theorem grid_scenario_final_row_empty :
    (create_timeslot_table 540 60 15 4 [⟨540, 570⟩, ⟨555, 600⟩]).getD 4 (0, []) =
        (600, [none, none, none, none]) ∧
      cellAt (fillAll 540 15 (numSlots 60 15) [⟨540, 570⟩, ⟨555, 600⟩]).grid 4 1 = none := by
  decide

/-- C1 (amended): the scenario grid has 5 rows (540, 555, 570, 585, 600);
row 540 holds occasion 1 (pid 0) in column 0 only; row 555 holds
occasion 1 as a continuation in column 0 and occasion 2 (pid 1) newly
placed in column 1; rows 570 and 585 hold occasion 2 as a continuation in
column 1; row 600 is empty; the column count is `max(minColumns, 2)`
(4 columns for `minColumns = 4`, 2 for `minColumns = 1`).  In general an
occasion occupies the slots whose keys are `≥` its (clamped) start and
`<` its end, so one ending exactly on a slot key or on `gridEnd` fills up
to the preceding slot only. -/
theorem grid_scenario_layout :
    sortByStart [⟨540, 570⟩, ⟨555, 600⟩] = [⟨540, 570⟩, ⟨555, 600⟩] ∧
      create_timeslot_table 540 60 15 4 [⟨540, 570⟩, ⟨555, 600⟩] =
        [(540, [some 0, none, none, none]),
         (555, [some 0, some 1, none, none]),
         (570, [none, some 1, none, none]),
         (585, [none, some 1, none, none]),
         (600, [none, none, none, none])] ∧
      create_timeslot_table 540 60 15 1 [⟨540, 570⟩, ⟨555, 600⟩] =
        [(540, [some 0, none]),
         (555, [some 0, some 1]),
         (570, [none, some 1]),
         (585, [none, some 1]),
         (600, [none, none])] := by
  decide

/-- C2 (counterexample): two occasions with equal start times, the first
of the input having the LATER end: `sorted` under `__cmp__` compares
`start_time` only and is stable, so the later-end occasion keeps its
place, is processed first (pid 0) and receives column 0, while the
earlier-end occasion receives column 1 — refuting "the one with the
earlier end receives the lower column number". -/
theorem equal_start_later_end_gets_first_column :
    sortByStart [⟨0, 60⟩, ⟨0, 15⟩] = [⟨0, 60⟩, ⟨0, 15⟩] ∧
      findCell (fillAll 0 15 5 [⟨0, 60⟩, ⟨0, 15⟩]).grid 0 = some (0, 0) ∧
      findCell (fillAll 0 15 5 [⟨0, 60⟩, ⟨0, 15⟩]).grid 1 = some (0, 1) := by
  decide

/-- C9 (counterexample): placing the single occasion `[0,30]` on a
15-minute grid writes the starting cell twice — once at utils.py:217
(`timeslot[colkey] = proxy`) and again in the first iteration of the
continuation loop at utils.py:228 (`row[colkey] = proxy`, with
`current == rowkey`) — so "whenever a placement is written the cell was
previously empty" is false as stated, although the second write stores
the SAME placement (`wroteOther` stays false). -/
theorem start_cell_written_twice :
    (fillAll 0 15 3 [⟨0, 30⟩]).wroteOccupied = true ∧
      (fillAll 0 15 3 [⟨0, 30⟩]).wroteOther = false := by
  decide

/-! ### Basic lemmas about rows and grids -/

theorem cellGet_nil (c : Nat) : cellGet [] c = none := by
  cases c <;> rfl

theorem cellGet_setCol (r : Row) (c c' : Nat) (v : Option Nat) :
    cellGet (setCol r c v) c' = if c' = c then v else cellGet r c' := by
  induction c generalizing r c' with
  | zero =>
      cases r <;> cases c' <;> simp [setCol, cellGet]
  | succ c ih =>
      cases r with
      | nil =>
          cases c' with
          | zero => simp [setCol, cellGet]
          | succ c' =>
              simp only [setCol, cellGet, ih [] c']
              simp [Nat.succ_inj]
      | cons x t =>
          cases c' with
          | zero => simp [setCol, cellGet]
          | succ c' =>
              simp only [setCol, cellGet, ih t c']
              simp [Nat.succ_inj]

theorem cellGet_firstFreeCol (r : Row) : cellGet r (firstFreeCol r) = none := by
  induction r with
  | nil => rfl
  | cons x t ih =>
      cases x with
      | none => rfl
      | some a => simpa [firstFreeCol, cellGet] using ih

theorem cellGet_lt_firstFreeCol (r : Row) (c : Nat) (h : c < firstFreeCol r) :
    (cellGet r c).isSome = true := by
  induction r generalizing c with
  | nil => simp [firstFreeCol] at h
  | cons x t ih =>
      cases x with
      | none => simp [firstFreeCol] at h
      | some a =>
          cases c with
          | zero => rfl
          | succ c =>
              simp only [firstFreeCol] at h
              exact ih c (by omega)

theorem firstFreeCol_gt (r : Row) (m : Nat)
    (h : ∀ c, c ≤ m → (cellGet r c).isSome = true) : m < firstFreeCol r := by
  by_contra hcon
  have h1 := h (firstFreeCol r) (by omega)
  rw [cellGet_firstFreeCol] at h1
  simp at h1

theorem gridRow_nil (k : Nat) : gridRow [] k = [] := by
  cases k <;> rfl

theorem gridRow_ge_length (g : Grid) (k : Nat) (h : g.length ≤ k) :
    gridRow g k = [] := by
  induction g generalizing k with
  | nil => exact gridRow_nil k
  | cons r t ih =>
      cases k with
      | zero => simp at h
      | succ k => exact ih k (by simpa using h)

theorem gridRow_replicate (n k : Nat) : gridRow (List.replicate n []) k = [] := by
  induction n generalizing k with
  | zero => exact gridRow_nil k
  | succ n ih =>
      cases k with
      | zero => rfl
      | succ k => exact ih k

theorem setRow_length (g : Grid) (k : Nat) (r : Row) :
    (setRow g k r).length = g.length := by
  induction g generalizing k with
  | nil => rfl
  | cons h t ih =>
      cases k with
      | zero => rfl
      | succ k => simpa [setRow] using ih k

theorem gridRow_setRow_self (g : Grid) (k : Nat) (r : Row) (h : k < g.length) :
    gridRow (setRow g k r) k = r := by
  induction g generalizing k with
  | nil => simp at h
  | cons x t ih =>
      cases k with
      | zero => rfl
      | succ k => exact ih k (by simpa using h)

theorem gridRow_setRow_ne (g : Grid) (k k' : Nat) (r : Row) (h : k' ≠ k) :
    gridRow (setRow g k r) k' = gridRow g k' := by
  induction g generalizing k k' with
  | nil => rw [setRow]
  | cons x t ih =>
      cases k with
      | zero =>
          cases k' with
          | zero => omega
          | succ k' => rfl
      | succ k =>
          cases k' with
          | zero => rfl
          | succ k' => exact ih k k' (by omega)

theorem writeCell_length (g : Grid) (k c pid : Nat) :
    (writeCell g k c pid).length = g.length := setRow_length g k _

theorem cellAt_writeCell (g : Grid) (k c pid k' c' : Nat) (h : k < g.length) :
    cellAt (writeCell g k c pid) k' c' =
      if k' = k ∧ c' = c then some pid else cellAt g k' c' := by
  unfold cellAt writeCell
  by_cases hk : k' = k
  · subst hk
    rw [gridRow_setRow_self g k' _ h, cellGet_setCol]
    by_cases hc : c' = c <;> simp [hc]
  · rw [gridRow_setRow_ne g k k' _ hk]
    simp [hk]

theorem cellAt_ge_length (g : Grid) (k c : Nat) (h : g.length ≤ k) :
    cellAt g k c = none := by
  unfold cellAt
  rw [gridRow_ge_length g k h, cellGet_nil]

theorem cellAt_replicate (n k c : Nat) :
    cellAt (List.replicate n ([] : Row)) k c = none := by
  unfold cellAt
  rw [gridRow_replicate, cellGet_nil]

/-! ### Lemmas about `writeChecked` -/

theorem writeChecked_grid (st : FillState) (k c pid : Nat) :
    (writeChecked st k c pid).grid = writeCell st.grid k c pid := rfl

theorem writeChecked_wroteOther (st : FillState) (k c pid : Nat)
    (h : cellAt st.grid k c = none ∨ cellAt st.grid k c = some pid) :
    (writeChecked st k c pid).wroteOther = st.wroteOther := by
  unfold writeChecked
  rcases h with h | h <;> simp [h]

/-! ### Lemmas about `slotIndex` and `itemSlot` -/

theorem slotIndex_eq_some (dtstart Δ : Int) (Kp : Nat) (t : Int) (r : Nat)
    (hΔ : 0 < Δ) :
    slotIndex dtstart Δ Kp t = some r ↔ (t = slotKey dtstart Δ r ∧ r < Kp) := by
  have hΔn : ((Δ.toNat : Int)) = Δ := Int.toNat_of_nonneg hΔ.le
  have hΔn0 : 0 < Δ.toNat := by omega
  simp only [slotIndex, slotKey]
  constructor
  · intro h
    split at h
    case isFalse => simp at h
    case isTrue hcond =>
      obtain ⟨hd0, hmod, hlt⟩ := hcond
      have hr : (t - dtstart).toNat / Δ.toNat = r := by
        simpa using h
      have hdvd : Δ.toNat ∣ (t - dtstart).toNat := Nat.dvd_of_mod_eq_zero hmod
      have hmul : (t - dtstart).toNat / Δ.toNat * Δ.toNat = (t - dtstart).toNat :=
        Nat.div_mul_cancel hdvd
      rw [hr] at hmul
      have hcast : (((t - dtstart).toNat : Nat) : Int) = t - dtstart :=
        Int.toNat_of_nonneg hd0
      rw [← hmul] at hcast
      push_cast at hcast
      rw [hΔn] at hcast
      rw [hr] at hlt
      exact ⟨by omega, hlt⟩
  · rintro ⟨ht, hlt⟩
    have hd : t - dtstart = (r : Int) * Δ := by omega
    have hd' : t - dtstart = ((r * Δ.toNat : Nat) : Int) := by
      push_cast
      rw [hΔn]
      exact hd
    have hdn : (t - dtstart).toNat = r * Δ.toNat := by omega
    rw [if_pos ⟨by omega, by rw [hdn]; exact Nat.mul_mod_left r Δ.toNat,
      by rw [hdn, Nat.mul_div_cancel r hΔn0]; exact hlt⟩]
    rw [hdn, Nat.mul_div_cancel r hΔn0]

theorem rowkeyOf_mono (dtstart : Int) (it it' : Occ)
    (h : it.start_time ≤ it'.start_time) :
    rowkeyOf dtstart it ≤ rowkeyOf dtstart it' := by
  unfold rowkeyOf
  split_ifs <;> omega

theorem itemSlot_mono (dtstart Δ : Int) (Kp : Nat) (it it' : Occ) (r r' : Nat)
    (hΔ : 0 < Δ) (hst : it.start_time ≤ it'.start_time)
    (h : itemSlot dtstart Δ Kp it = some r)
    (h' : itemSlot dtstart Δ Kp it' = some r') : r ≤ r' := by
  rw [itemSlot, slotIndex_eq_some _ _ _ _ _ hΔ] at h h'
  have hk := rowkeyOf_mono dtstart it it' hst
  rw [h.1, h'.1] at hk
  unfold slotKey at hk
  have : (r : Int) * Δ ≤ (r' : Int) * Δ := by omega
  have : (r : Int) ≤ (r' : Int) := le_of_mul_le_mul_right this hΔ
  omega

theorem itemSlot_lt_Kp (dtstart Δ : Int) (Kp : Nat) (it : Occ) (r : Nat)
    (hΔ : 0 < Δ) (h : itemSlot dtstart Δ Kp it = some r) : r < Kp :=
  ((slotIndex_eq_some _ _ _ _ _ hΔ).mp h).2

/-! ### Lemmas about the stable sort `sortByStart` -/

theorem mem_insertByStart (x a : Occ) (l : List Occ) :
    a ∈ insertByStart x l ↔ a = x ∨ a ∈ l := by
  induction l with
  | nil => simp [insertByStart]
  | cons y ys ih =>
      by_cases h : y.start_time ≤ x.start_time
      · simp only [insertByStart, if_pos h, List.mem_cons, ih]
        tauto
      · simp only [insertByStart, if_neg h, List.mem_cons]

theorem insertByStart_pairwise (x : Occ) (l : List Occ)
    (h : l.Pairwise (fun a b => a.start_time ≤ b.start_time)) :
    (insertByStart x l).Pairwise (fun a b => a.start_time ≤ b.start_time) := by
  induction l with
  | nil => simp [insertByStart]
  | cons y ys ih =>
      rcases List.pairwise_cons.mp h with ⟨hy, hys⟩
      by_cases hle : y.start_time ≤ x.start_time
      · rw [insertByStart, if_pos hle]
        refine List.pairwise_cons.mpr ⟨?_, ih hys⟩
        intro a ha
        rcases (mem_insertByStart x a ys).mp ha with rfl | ha
        · exact hle
        · exact hy a ha
      · rw [insertByStart, if_neg hle]
        refine List.pairwise_cons.mpr ⟨?_, h⟩
        intro a ha
        rcases List.mem_cons.mp ha with rfl | ha
        · omega
        · have := hy a ha
          omega

theorem insertByStart_perm (x : Occ) (l : List Occ) :
    (insertByStart x l).Perm (x :: l) := by
  induction l with
  | nil => exact List.Perm.refl _
  | cons y ys ih =>
      by_cases h : y.start_time ≤ x.start_time
      · rw [insertByStart, if_pos h]
        exact (ih.cons y).trans (List.Perm.swap x y ys)
      · rw [insertByStart, if_neg h]

theorem sortByStart_foldl_pairwise (rest acc : List Occ)
    (h : acc.Pairwise (fun a b => a.start_time ≤ b.start_time)) :
    (rest.foldl (fun acc x => insertByStart x acc) acc).Pairwise
      (fun a b => a.start_time ≤ b.start_time) := by
  induction rest generalizing acc with
  | nil => exact h
  | cons x rest ih => exact ih _ (insertByStart_pairwise x acc h)

/-- The processing order of `create_timeslot_table` is ascending by
`start_time`. -/
theorem sortByStart_pairwise (items : List Occ) :
    (sortByStart items).Pairwise (fun a b => a.start_time ≤ b.start_time) :=
  sortByStart_foldl_pairwise items [] (List.Pairwise.nil)

theorem sortByStart_foldl_perm (rest acc : List Occ) :
    (rest.foldl (fun acc x => insertByStart x acc) acc).Perm (acc ++ rest) := by
  induction rest generalizing acc with
  | nil => simp
  | cons x rest ih =>
      refine (ih (insertByStart x acc)).trans ?_
      have h1 : (insertByStart x acc ++ rest).Perm ((x :: acc) ++ rest) :=
        (insertByStart_perm x acc).append_right rest
      refine h1.trans ?_
      simpa using List.perm_middle.symm

theorem sortByStart_perm (items : List Occ) : (sortByStart items).Perm items := by
  simpa [sortByStart] using sortByStart_foldl_perm items []

theorem filter_eq_nil_of_lt (s : Int) (y : Occ) (ys : List Occ)
    (h : (y :: ys).Pairwise (fun a b => a.start_time ≤ b.start_time))
    (hy : s < y.start_time) :
    (y :: ys).filter (fun o => o.start_time == s) = [] := by
  rw [List.filter_eq_nil_iff]
  intro a ha
  rcases List.pairwise_cons.mp h with ⟨hhead, _⟩
  rcases List.mem_cons.mp ha with rfl | ha
  · simp; omega
  · have := hhead a ha
    simp; omega

theorem insertByStart_filter (x : Occ) (l : List Occ) (s : Int)
    (h : l.Pairwise (fun a b => a.start_time ≤ b.start_time)) :
    (insertByStart x l).filter (fun o => o.start_time == s) =
      if x.start_time = s then
        l.filter (fun o => o.start_time == s) ++ [x]
      else l.filter (fun o => o.start_time == s) := by
  induction l with
  | nil =>
      by_cases hx : x.start_time = s <;>
        simp [insertByStart, List.filter_cons, beq_iff_eq, hx]
  | cons y ys ih =>
      rcases List.pairwise_cons.mp h with ⟨_, hys⟩
      by_cases hle : y.start_time ≤ x.start_time
      · rw [insertByStart, if_pos hle]
        by_cases hy : y.start_time = s
        · simp only [List.filter_cons, if_pos (by simpa using hy), ih hys]
          split_ifs <;> simp [hy]
        · simp only [List.filter_cons, if_neg (by simpa using hy), ih hys]
          split_ifs <;> simp [hy]
      · rw [insertByStart, if_neg hle]
        by_cases hx : x.start_time = s
        · rw [if_pos hx]
          have hnil : (y :: ys).filter (fun o => o.start_time == s) = [] :=
            filter_eq_nil_of_lt s y ys h (by omega)
          simp [List.filter_cons, hx, hnil]
        · rw [if_neg hx]
          simp [List.filter_cons, hx]

theorem sortByStart_foldl_filter (rest acc : List Occ) (s : Int)
    (h : acc.Pairwise (fun a b => a.start_time ≤ b.start_time)) :
    (rest.foldl (fun acc x => insertByStart x acc) acc).filter
        (fun o => o.start_time == s) =
      acc.filter (fun o => o.start_time == s) ++
        rest.filter (fun o => o.start_time == s) := by
  induction rest generalizing acc with
  | nil => simp
  | cons x rest ih =>
      simp only [List.foldl_cons]
      rw [ih (insertByStart x acc) (insertByStart_pairwise x acc h),
        insertByStart_filter x acc s h]
      by_cases hx : x.start_time = s
      · simp [List.filter_cons, hx]
      · simp [List.filter_cons, hx]

/-- Stability of the sort: occasions sharing any fixed start value keep
their input order. -/
theorem sortByStart_filter_stable (items : List Occ) (s : Int) :
    (sortByStart items).filter (fun o => o.start_time == s) =
      items.filter (fun o => o.start_time == s) := by
  simpa [sortByStart] using sortByStart_foldl_filter items [] s List.Pairwise.nil

/-! ### Access helpers for sorted lists -/

theorem getD_mem (l : List Occ) (k : Nat) (d : Occ) (h : k < l.length) :
    l.getD k d ∈ l := by
  induction l generalizing k with
  | nil => simp at h
  | cons x t ih =>
      cases k with
      | zero => simp
      | succ k =>
          simp only [List.getD_cons_succ]
          exact List.mem_cons_of_mem x (ih k (by simpa using h))

theorem pairwise_getD (l : List Occ) (d : Occ)
    (h : l.Pairwise (fun a b => a.start_time ≤ b.start_time))
    (i j : Nat) (hij : i < j) (hj : j < l.length) :
    (l.getD i d).start_time ≤ (l.getD j d).start_time := by
  induction l generalizing i j with
  | nil => simp at hj
  | cons x t ih =>
      rcases List.pairwise_cons.mp h with ⟨hx, ht⟩
      cases i with
      | zero =>
          cases j with
          | zero => omega
          | succ j =>
              simp only [List.getD_cons_zero, List.getD_cons_succ]
              exact hx _ (getD_mem t j d (by simpa using hj))
      | succ i =>
          cases j with
          | zero => omega
          | succ j =>
              simp only [List.getD_cons_succ]
              exact ih ht i j (by omega) (by simpa using hj)

theorem drop_cons_getD (L : List Occ) (i : Nat) (it : Occ) (rest : List Occ)
    (d : Occ) (h : L.drop i = it :: rest) :
    i < L.length ∧ L.getD i d = it ∧ L.drop (i + 1) = rest := by
  induction L generalizing i with
  | nil => simp at h
  | cons x t ih =>
      cases i with
      | zero =>
          simp only [List.drop_zero] at h
          cases h
          exact ⟨by simp, rfl, by simp⟩
      | succ i =>
          have h' : t.drop i = it :: rest := by simpa using h
          obtain ⟨h1, h2, h3⟩ := ih i h'
          exact ⟨by simpa using h1, by simpa using h2, by simpa using h3⟩

/-! ### Lemmas about `StepSafe`, `Placed`, `Dropped`, `LowestCol` -/

theorem StepSafe.refl (g : Grid) (pid : Nat) : StepSafe g g pid :=
  ⟨Eq.refl _, fun _ _ => Or.inl (Eq.refl _)⟩

theorem StepSafe.trans (g g' g'' : Grid) (pid : Nat)
    (h1 : StepSafe g g' pid) (h2 : StepSafe g' g'' pid) : StepSafe g g'' pid := by
  refine ⟨h2.1.trans h1.1, fun k col => ?_⟩
  rcases h2.2 k col with h | ⟨hnone, hsome⟩
  · rcases h1.2 k col with h' | ⟨hnone', hsome'⟩
    · exact Or.inl (h.trans h')
    · exact Or.inr ⟨hnone', h.trans hsome'⟩
  · rcases h1.2 k col with h' | ⟨hnone', hsome'⟩
    · exact Or.inr ⟨h' ▸ hnone, hsome⟩
    · rw [hsome'] at hnone
      simp at hnone

theorem StepSafe.preserves_some (g g' : Grid) (pid : Nat)
    (h : StepSafe g g' pid) (k col q : Nat)
    (hc : cellAt g k col = some q) : cellAt g' k col = some q := by
  rcases h.2 k col with h' | ⟨hnone, _⟩
  · rw [h', hc]
  · rw [hc] at hnone
    simp at hnone

theorem StepSafe.writeCell (g : Grid) (k c pid : Nat)
    (hk : k < g.length)
    (hold : cellAt g k c = none ∨ cellAt g k c = some pid) :
    StepSafe g (writeCell g k c pid) pid := by
  refine ⟨writeCell_length g k c pid, fun k' col' => ?_⟩
  rw [cellAt_writeCell g k c pid k' col' hk]
  by_cases hkc : k' = k ∧ col' = c
  · rw [if_pos hkc]
    rcases hold with h | h
    · exact Or.inr ⟨hkc.1 ▸ hkc.2 ▸ h, rfl⟩
    · exact Or.inl (by rw [hkc.1, hkc.2, h])
  · rw [if_neg hkc]
    exact Or.inl rfl

theorem Placed_transfer (g g' : Grid) (i pid c r b : Nat)
    (hsafe : StepSafe g g' i) (hne : pid ≠ i) :
    Placed g pid c r b ↔ Placed g' pid c r b := by
  have cell : ∀ k col, cellAt g' k col = some pid ↔ cellAt g k col = some pid := by
    intro k col
    constructor
    · intro h
      rcases hsafe.2 k col with h' | ⟨_, hsome⟩
      · rw [← h', h]
      · rw [h] at hsome
        cases hsome
        exact absurd rfl hne
    · exact StepSafe.preserves_some g g' i hsafe k col pid
  constructor
  · intro hp k col
    rw [cell k col]
    exact hp k col
  · intro hp k col
    rw [← cell k col]
    exact hp k col

theorem Dropped_transfer (g g' : Grid) (i pid : Nat)
    (hsafe : StepSafe g g' i) (hne : pid ≠ i)
    (hd : Dropped g pid) : Dropped g' pid := by
  intro k col h
  rcases hsafe.2 k col with h' | ⟨_, hsome⟩
  · exact hd k col (h' ▸ h)
  · rw [h] at hsome
    cases hsome
    exact absurd rfl hne

theorem LowestCol_transfer (g g' : Grid) (i pid c r : Nat)
    (hsafe : StepSafe g g' i) (hl : LowestCol g pid c r) :
    LowestCol g' pid c r := by
  intro c' hc'
  obtain ⟨q, hq, hcell⟩ := hl c' hc'
  exact ⟨q, hq, StepSafe.preserves_some g g' i hsafe r c' q hcell⟩

theorem Placed_unique (g : Grid) (pid c1 r1 b1 c2 r2 b2 : Nat)
    (h1 : Placed g pid c1 r1 b1) (hb1 : r1 < b1)
    (h2 : Placed g pid c2 r2 b2) (hb2 : r2 < b2) :
    c1 = c2 ∧ r1 = r2 := by
  have hc1 : cellAt g r1 c1 = some pid := (h1 r1 c1).mpr ⟨rfl, le_refl r1, hb1⟩
  have hc2 : cellAt g r2 c2 = some pid := (h2 r2 c2).mpr ⟨rfl, le_refl r2, hb2⟩
  obtain ⟨hcc, hr21, _⟩ := (h2 r1 c1).mp hc1
  obtain ⟨hcc', hr12, _⟩ := (h1 r2 c2).mp hc2
  exact ⟨hcc, by omega⟩

/-! ### Lemmas about `findCol`, `findCell` -/

theorem findCol_eq_some (row : Row) (pid c : Nat)
    (h0 : ∀ c', c' < c → cellGet row c' ≠ some pid)
    (h1 : cellGet row c = some pid) : findCol row pid = some c := by
  induction row generalizing c with
  | nil => rw [cellGet_nil] at h1; cases h1
  | cons x t ih =>
      cases c with
      | zero =>
          have : x = some pid := h1
          simp [findCol, this]
      | succ c =>
          have hx : x ≠ some pid := by
            have := h0 0 (by omega)
            simpa [cellGet] using this
          rw [findCol, if_neg hx]
          rw [ih c (fun c' hc' => by
            have := h0 (c' + 1) (by omega)
            simpa [cellGet] using this) h1]
          rfl

theorem findCol_eq_none (row : Row) (pid : Nat)
    (h : ∀ c', cellGet row c' ≠ some pid) : findCol row pid = none := by
  induction row with
  | nil => rfl
  | cons x t ih =>
      have hx : x ≠ some pid := by
        have := h 0
        simpa [cellGet] using this
      rw [findCol, if_neg hx, ih (fun c' => by
        have := h (c' + 1)
        simpa [cellGet] using this)]
      rfl

theorem findCol_sound (row : Row) (pid c : Nat)
    (h : findCol row pid = some c) : cellGet row c = some pid := by
  induction row generalizing c with
  | nil => cases h
  | cons x t ih =>
      rw [findCol] at h
      by_cases hx : x = some pid
      · rw [if_pos hx] at h
        cases h
        exact hx
      · rw [if_neg hx] at h
        cases hc : findCol t pid with
        | none => rw [hc] at h; cases h
        | some c0 =>
            rw [hc] at h
            cases h
            exact ih c0 hc

theorem findCellAux_of_placed (g : Grid) (pid c r b : Nat)
    (hP : Placed g pid c r b) (hrb : r < b) :
    ∀ fuel k, k ≤ r → r < k + fuel →
      findCellAux g pid k fuel = some (r, c) := by
  intro fuel
  induction fuel with
  | zero => intro k hk habs; omega
  | succ fuel ih =>
      intro k hk hbound
      by_cases hkr : k = r
      · subst hkr
        have h1 : cellAt g k c = some pid := (hP k c).mpr ⟨rfl, le_refl k, hrb⟩
        have hcol : findCol (gridRow g k) pid = some c := by
          refine findCol_eq_some (gridRow g k) pid c ?_ h1
          intro c' hc' hcell
          have := ((hP k c').mp hcell).1
          omega
        rw [findCellAux, hcol]
      · have hcol : findCol (gridRow g k) pid = none := by
          refine findCol_eq_none (gridRow g k) pid ?_
          intro c' hcell
          have := ((hP k c').mp hcell).2.1
          omega
        rw [findCellAux, hcol]
        exact ih (k + 1) (by omega) (by omega)

theorem findCell_of_placed (g : Grid) (pid c r b : Nat)
    (hP : Placed g pid c r b) (hrb : r < b) (hr : r < g.length) :
    findCell g pid = some (r, c) :=
  findCellAux_of_placed g pid c r b hP hrb g.length 0 (by omega) (by omega)

theorem findCellAux_sound (g : Grid) (pid : Nat) :
    ∀ fuel k r c, findCellAux g pid k fuel = some (r, c) →
      cellAt g r c = some pid := by
  intro fuel
  induction fuel with
  | zero => intro k r c h; cases h
  | succ fuel ih =>
      intro k r c h
      rw [findCellAux] at h
      cases hcol : findCol (gridRow g k) pid with
      | some c0 =>
          rw [hcol] at h
          cases h
          exact findCol_sound (gridRow g k) pid _ hcol
      | none =>
          rw [hcol] at h
          exact ih (k + 1) r c h

theorem findCell_sound (g : Grid) (pid r c : Nat)
    (h : findCell g pid = some (r, c)) : cellAt g r c = some pid :=
  findCellAux_sound g pid g.length 0 r c h

/-! ### The continuation loop preserves the fill invariant -/

theorem fillRun_inv (dtstart Δ : Int) (Kp : Nat) (endT : Int) (pid c r : Nat)
    (gbase : Grid) (hrKp : r < Kp) :
    ∀ fuel k (st : FillState),
      r ≤ k → k ≤ Kp → Kp - k < fuel → st.grid.length = Kp →
      (∀ k' col', cellAt st.grid k' col' = some pid ↔
        (col' = c ∧ r ≤ k' ∧ k' < max k (r + 1))) →
      (∀ k', k ≤ k' → r < k' → cellAt st.grid k' c = none) →
      StepSafe gbase st.grid pid →
      ∃ b, r < b ∧ b ≤ Kp ∧
        (fillRun dtstart Δ Kp endT pid c k fuel st).grid.length = Kp ∧
        Placed (fillRun dtstart Δ Kp endT pid c k fuel st).grid pid c r b ∧
        StepSafe gbase (fillRun dtstart Δ Kp endT pid c k fuel st).grid pid ∧
        (fillRun dtstart Δ Kp endT pid c k fuel st).wroteOther = st.wroteOther := by
  intro fuel
  induction fuel with
  | zero =>
      intro k st hrk hkK hfuel
      exact absurd hfuel (by omega)
  | succ fuel ih =>
      intro k st hrk hkK hfuel hlen hB1 hB2 hsafe
      rw [fillRun]
      by_cases hguard : slotKey dtstart Δ k < endT ∧ k < Kp
      · rw [if_pos hguard]
        have hkg : k < st.grid.length := by omega
        have hold : cellAt st.grid k c = none ∨ cellAt st.grid k c = some pid := by
          by_cases hkr : k = r
          · right
            exact (hB1 k c).mpr ⟨rfl, hrk, by omega⟩
          · left
            exact hB2 k (le_refl k) (by omega)
        have hw1 : (writeChecked st k c pid).wroteOther = st.wroteOther :=
          writeChecked_wroteOther st k c pid hold
        have hg1 : (writeChecked st k c pid).grid = writeCell st.grid k c pid := rfl
        obtain ⟨b, h1, h2, h3, h4, h5, h6⟩ :=
          ih (k + 1) (writeChecked st k c pid) (by omega) (by omega) (by omega)
            (by rw [hg1, writeCell_length]; exact hlen)
            (by
              intro k' col'
              rw [hg1, cellAt_writeCell st.grid k c pid k' col' hkg]
              by_cases hkc : k' = k ∧ col' = c
              · rw [if_pos hkc]
                constructor
                · intro _
                  exact ⟨hkc.2, by omega, by omega⟩
                · intro _
                  rfl
              · rw [if_neg hkc]
                rw [hB1 k' col']
                constructor
                · rintro ⟨rfl, hk1, hk2⟩
                  exact ⟨rfl, hk1, by omega⟩
                · rintro ⟨rfl, hk1, hk2⟩
                  have hne : k' ≠ k := fun h => hkc ⟨h, rfl⟩
                  exact ⟨rfl, hk1, by omega⟩)
            (by
              intro k' hk1 hk2
              rw [hg1, cellAt_writeCell st.grid k c pid k' c hkg,
                if_neg (fun h => by omega : ¬(k' = k ∧ c = c))]
              exact hB2 k' (by omega) hk2)
            (StepSafe.trans gbase st.grid (writeChecked st k c pid).grid pid hsafe
              (hg1 ▸ StepSafe.writeCell st.grid k c pid hkg hold))
        exact ⟨b, h1, h2, h3, h4, h5, by rw [h6, hw1]⟩
      · rw [if_neg hguard]
        exact ⟨max k (r + 1), by omega, by omega, hlen, hB1, hsafe, rfl⟩

/-- A step that places nothing advances the invariant: item `i` is simply
dropped. -/
theorem Inv_succ_of_skip (dtstart Δ : Int) (Kp : Nat) (L : List Occ) (i : Nat)
    (g : Grid) (h : Inv dtstart Δ Kp L i g) : Inv dtstart Δ Kp L (i + 1) g := by
  obtain ⟨hlen, howner, hthird, hord⟩ := h
  refine ⟨hlen, fun k col pid hc => by have := howner k col pid hc; omega, ?_, ?_⟩
  · intro pid hpid
    by_cases hpi : pid < i
    · exact hthird pid hpi
    · left
      intro k col hc
      have := howner k col pid hc
      omega
  · intro pid pid' c0 r0 b0 c' r' b' hpp hpi' hP hrb hP' hr'b' heq
    by_cases hlt : pid' < i
    · exact hord pid pid' c0 r0 b0 c' r' b' hpp hlt hP hrb hP' hr'b' heq
    · exfalso
      have hcell : cellAt g r' c' = some pid' := (hP' r' c').mpr ⟨rfl, le_refl r', hr'b'⟩
      have := howner r' c' pid' hcell
      omega

/-- Processing one occasion preserves the invariant and never writes over
a different placement. -/
theorem placeItem_inv (dtstart Δ : Int) (Kp : Nat) (L : List Occ)
    (hΔ : 0 < Δ)
    (hL : L.Pairwise (fun a b => a.start_time ≤ b.start_time))
    (i : Nat) (hi : i < L.length) (st : FillState)
    (hInv : Inv dtstart Δ Kp L i st.grid) (hw : st.wroteOther = false) :
    Inv dtstart Δ Kp L (i + 1) (placeItem dtstart Δ Kp st i (L.getD i default)).grid ∧
      (placeItem dtstart Δ Kp st i (L.getD i default)).wroteOther = false := by
  obtain ⟨hlen, howner, hthird, hord⟩ := hInv
  set it := L.getD i default with hit
  simp only [placeItem]
  by_cases h1 : it.end_time ≤ dtstart
  · rw [if_pos h1]
    exact ⟨Inv_succ_of_skip dtstart Δ Kp L i st.grid ⟨hlen, howner, hthird, hord⟩, hw⟩
  · rw [if_neg h1]
    cases hslot : itemSlot dtstart Δ Kp it with
    | none =>
        exact ⟨Inv_succ_of_skip dtstart Δ Kp L i st.grid ⟨hlen, howner, hthird, hord⟩, hw⟩
    | some r =>
        have hrK : r < Kp := itemSlot_lt_Kp dtstart Δ Kp it r hΔ hslot
        have hrg : r < st.grid.length := by omega
        set c := firstFreeCol (gridRow st.grid r) with hc
        -- column `c` is free in every row at or below `r`
        have hA : ∀ k', r ≤ k' → cellAt st.grid k' c = none := by
          intro k' hk'
          cases hcell : cellAt st.grid k' c with
          | none => rfl
          | some q =>
              exfalso
              have hq : q < i := howner k' c q hcell
              rcases hthird q hq with hdrop | ⟨rq, cq, bq, hslotq, hrbq, hbKq, hplq, _⟩
              · exact hdrop k' c hcell
              · obtain ⟨hcc, hrq, hkb⟩ := (hplq k' c).mp hcell
                have hstart : (L.getD q default).start_time ≤ it.start_time := by
                  rw [hit]
                  exact pairwise_getD L default hL q i hq hi
                have hrqr : rq ≤ r :=
                  itemSlot_mono dtstart Δ Kp _ _ rq r hΔ hstart hslotq hslot
                have hcr : cellAt st.grid r c = some q :=
                  (hplq r c).mpr ⟨hcc, by omega, by omega⟩
                have hfree : cellAt st.grid r c = none := by
                  rw [show cellAt st.grid r c = cellGet (gridRow st.grid r) c from rfl,
                    hc, cellGet_firstFreeCol]
                rw [hfree] at hcr
                cases hcr
        have hA5 : ∀ k' col', cellAt st.grid k' col' ≠ some i := by
          intro k' col' hcell
          have := howner k' col' i hcell
          omega
        have hold0 : cellAt st.grid r c = none := hA r (le_refl r)
        have hw1 : (writeChecked st r c i).wroteOther = st.wroteOther :=
          writeChecked_wroteOther st r c i (Or.inl hold0)
        have hg1 : (writeChecked st r c i).grid = writeCell st.grid r c i := rfl
        obtain ⟨b, hrb, hbK, hlen', hplaced, hsafe, hwoth⟩ :=
          fillRun_inv dtstart Δ Kp it.end_time i c r st.grid hrK (Kp + 1) r
            (writeChecked st r c i) (le_refl r) (by omega) (by omega)
            (by rw [hg1, writeCell_length]; exact hlen)
            (by
              intro k' col'
              rw [hg1, cellAt_writeCell st.grid r c i k' col' hrg]
              by_cases hkc : k' = r ∧ col' = c
              · rw [if_pos hkc]
                constructor
                · intro _
                  exact ⟨hkc.2, by omega, by omega⟩
                · intro _
                  rfl
              · rw [if_neg hkc]
                constructor
                · intro hcell
                  exact absurd hcell (hA5 k' col')
                · rintro ⟨rfl, hk1, hk2⟩
                  exact absurd ⟨by omega, rfl⟩ hkc)
            (by
              intro k' hk1 hk2
              rw [hg1, cellAt_writeCell st.grid r c i k' c hrg,
                if_neg (fun h => by omega : ¬(k' = r ∧ c = c))]
              exact hA k' (by omega))
            (hg1 ▸ StepSafe.writeCell st.grid r c i hrg (Or.inl hold0))
        refine ⟨⟨hlen', ?_, ?_, ?_⟩, by rw [hwoth, hw1, hw]⟩
        -- ownership bound
        · intro k col pid hcell
          rcases hsafe.2 k col with heq | ⟨_, hsome⟩
          · rw [heq] at hcell
            have := howner k col pid hcell
            omega
          · rw [hcell] at hsome
            cases hsome
            omega
        -- per-placement description
        · intro pid hpid
          by_cases hpi : pid < i
          · rcases hthird pid hpi with hdrop | ⟨rp, cp, bp, hslp, hrbp, hbKp2, hplp, hlowp⟩
            · left
              exact Dropped_transfer st.grid _ i pid hsafe (by omega) hdrop
            · right
              exact ⟨rp, cp, bp, hslp, hrbp, hbKp2,
                (Placed_transfer st.grid _ i pid cp rp bp hsafe (by omega)).mp hplp,
                LowestCol_transfer st.grid _ i pid cp rp hsafe hlowp⟩
          · have hpe : pid = i := by omega
            subst hpe
            right
            refine ⟨r, c, b, by rw [← hit]; exact hslot, hrb, hbK, hplaced, ?_⟩
            intro c' hc'
            have hsome : (cellGet (gridRow st.grid r) c').isSome = true :=
              cellGet_lt_firstFreeCol _ c' (by omega)
            cases hcell : cellAt st.grid r c' with
            | none =>
                rw [show cellAt st.grid r c' = cellGet (gridRow st.grid r) c' from rfl]
                  at hcell
                rw [hcell] at hsome
                simp at hsome
            | some q =>
                have hq : q < pid := howner r c' q hcell
                exact ⟨q, by omega,
                  StepSafe.preserves_some st.grid _ pid hsafe r c' q hcell⟩
        -- column ordering of same-row placements
        · intro pid pid' c0 r0 b0 c'' r'' b'' hpp hpi' hP hrb0 hP' hr''b'' heq
          by_cases hlt : pid' < i
          · have hPold :=
              (Placed_transfer st.grid _ i pid c0 r0 b0 hsafe (by omega)).mpr hP
            have hPold' :=
              (Placed_transfer st.grid _ i pid' c'' r'' b'' hsafe (by omega)).mpr hP'
            exact hord pid pid' c0 r0 b0 c'' r'' b'' hpp hlt hPold hrb0 hPold' hr''b'' heq
          · have hpe : pid' = i := by omega
            rw [hpe] at hP'
            have hpi : pid < i := by omega
            obtain ⟨hceq, hreq⟩ :=
              Placed_unique _ i c'' r'' b'' c r b hP' hr''b'' hplaced hrb
            have hPold :=
              (Placed_transfer st.grid _ i pid c0 r0 b0 hsafe (by omega)).mpr hP
            rcases hthird pid hpi with hdrop | ⟨rp, cp, bp, hslp, hrbp, _, hplp, hlowp⟩
            · exfalso
              exact hdrop r0 c0 ((hPold r0 c0).mpr ⟨rfl, le_refl r0, hrb0⟩)
            · obtain ⟨hcc, hrr⟩ :=
                Placed_unique st.grid pid c0 r0 b0 cp rp bp hPold hrb0 hplp hrbp
              -- row coordinates: r0 = r'' = r and r0 = rp
              have hocc : ∀ cc, cc ≤ c0 →
                  (cellGet (gridRow st.grid r) cc).isSome = true := by
                intro cc hcc'
                by_cases hcc0 : cc = c0
                · subst hcc0
                  have hcellp : cellAt st.grid rp cp = some pid :=
                    (hplp rp cp).mpr ⟨rfl, le_refl rp, hrbp⟩
                  have hrow : rp = r := by omega
                  have hcol : cp = cc := by omega
                  rw [hrow, hcol] at hcellp
                  rw [show cellAt st.grid r cc = cellGet (gridRow st.grid r) cc
                    from rfl] at hcellp
                  rw [hcellp]
                  rfl
                · obtain ⟨q, _, hcellq⟩ := hlowp cc (by omega)
                  have hrow : rp = r := by omega
                  rw [hrow] at hcellq
                  rw [show cellAt st.grid r cc = cellGet (gridRow st.grid r) cc
                    from rfl] at hcellq
                  rw [hcellq]
                  rfl
              have := firstFreeCol_gt (gridRow st.grid r) c0 hocc
              omega

theorem fillFrom_inv (dtstart Δ : Int) (Kp : Nat) (L : List Occ)
    (hΔ : 0 < Δ) (hL : L.Pairwise (fun a b => a.start_time ≤ b.start_time)) :
    ∀ (rest : List Occ) (i : Nat) (st : FillState),
      L.drop i = rest → Inv dtstart Δ Kp L i st.grid → st.wroteOther = false →
      Inv dtstart Δ Kp L (i + rest.length) (fillFrom dtstart Δ Kp i rest st).grid ∧
        (fillFrom dtstart Δ Kp i rest st).wroteOther = false := by
  intro rest
  induction rest with
  | nil =>
      intro i st _ hInv hw
      rw [fillFrom]
      simpa using ⟨hInv, hw⟩
  | cons it rest ih =>
      intro i st hdrop hInv hw
      obtain ⟨hi, hgetD, hdrop'⟩ := drop_cons_getD L i it rest default hdrop
      rw [fillFrom]
      have hstep := placeItem_inv dtstart Δ Kp L hΔ hL i hi st hInv hw
      rw [hgetD] at hstep
      obtain ⟨hInv', hw'⟩ := hstep
      have hrec := ih (i + 1) (placeItem dtstart Δ Kp st i it) hdrop' hInv' hw'
      have harith : i + (it :: rest).length = i + 1 + rest.length := by
        simp
        omega
      rw [harith]
      exact hrec

/-- The master invariant of the fill pass, at the end of processing. -/
theorem fillAll_inv (dtstart Δ : Int) (Kp : Nat) (items : List Occ) (hΔ : 0 < Δ) :
    Inv dtstart Δ Kp (sortByStart items) (sortByStart items).length
        (fillAll dtstart Δ Kp items).grid ∧
      (fillAll dtstart Δ Kp items).wroteOther = false := by
  have hbase : Inv dtstart Δ Kp (sortByStart items) 0 (List.replicate Kp ([] : Row)) := by
    refine ⟨List.length_replicate Kp [], ?_, ?_, ?_⟩
    · intro k col pid hc
      rw [cellAt_replicate] at hc
      cases hc
    · intro pid hpid
      omega
    · intro pid pid' c0 r0 b0 c' r' b' hpp hpi' hP hrb hP' hr'b' heq
      omega
  have hmain := fillFrom_inv dtstart Δ Kp (sortByStart items) hΔ
    (sortByStart_pairwise items) (sortByStart items) 0
    ⟨List.replicate Kp [], false, false⟩ (by simp) hbase rfl
  simpa [fillAll] using hmain

/-- C9 (amended): for every grid and every occasion list, the fill pass of
`create_timeslot_table` never writes over a cell holding a different
placement (`wroteOther` stays false), and every placement either occupies
no cell or occupies exactly the cells of one contiguous run of rows in a
single column (each cell holds at most one placement by construction). -/
theorem grid_no_trample (dtstart Δ : Int) (Kp : Nat) (items : List Occ)
    (pid : Nat) (hΔ : 0 < Δ) :
    (fillAll dtstart Δ Kp items).wroteOther = false ∧
      (Dropped (fillAll dtstart Δ Kp items).grid pid ∨
        ∃ c r b, r < b ∧ b ≤ Kp ∧
          Placed (fillAll dtstart Δ Kp items).grid pid c r b) := by
  obtain ⟨⟨hlen, howner, hthird, _⟩, hw⟩ := fillAll_inv dtstart Δ Kp items hΔ
  refine ⟨hw, ?_⟩
  by_cases hp : pid < (sortByStart items).length
  · rcases hthird pid hp with hdrop | ⟨r, c, b, _, hrb, hbK, hplaced, _⟩
    · exact Or.inl hdrop
    · exact Or.inr ⟨c, r, b, hrb, hbK, hplaced⟩
  · left
    intro k col hcell
    have := howner k col pid hcell
    omega

theorem grid_no_trample_witness :
    (0 : Int) < 15 ∧
      ((fillAll 540 15 5 [⟨540, 570⟩, ⟨555, 600⟩]).wroteOther = false ∧
        (Dropped (fillAll 540 15 5 [⟨540, 570⟩, ⟨555, 600⟩]).grid 1 ∨
          ∃ c r b, r < b ∧ b ≤ 5 ∧
            Placed (fillAll 540 15 5 [⟨540, 570⟩, ⟨555, 600⟩]).grid 1 c r b)) :=
  ⟨by decide, grid_no_trample 540 15 5 [⟨540, 570⟩, ⟨555, 600⟩] 1 (by decide)⟩

/-- C10: an occasion whose start lies strictly beyond the grid's span
(`start > gridStart + spanDuration`, hence beyond every slot key, with
`end > gridStart` so that it is not dropped by the early-end check)
produces no cell at all: `timeslots.get(rowkey)` returns `None` and the
item is skipped by the same silent `continue` that drops non-aligned
starts; no error is raised. -/
theorem out_of_grid_start_dropped (dtstart etd Δ : Int) (items : List Occ)
    (pid k c : Nat) (hΔ : 0 < Δ) (hetd : 0 ≤ etd)
    (hpid : pid < (sortByStart items).length)
    (hstart : dtstart + etd < ((sortByStart items).getD pid default).start_time)
    (_hend : dtstart < ((sortByStart items).getD pid default).end_time) :
    cellAt (fillAll dtstart Δ (numSlots etd Δ) items).grid k c ≠ some pid := by
  intro hcell
  obtain ⟨⟨hlen, howner, hthird, _⟩, _⟩ :=
    fillAll_inv dtstart Δ (numSlots etd Δ) items hΔ
  rcases hthird pid hpid with hdrop | ⟨r, c0, b, hslot, _, _, _, _⟩
  · exact hdrop k c hcell
  · set it := (sortByStart items).getD pid default with hit
    rw [itemSlot, slotIndex_eq_some _ _ _ _ _ hΔ] at hslot
    obtain ⟨hkey, hrK⟩ := hslot
    have hrow : rowkeyOf dtstart it = it.start_time := by
      rw [rowkeyOf, if_pos (by omega)]
    rw [hrow] at hkey
    -- the slot key of row r is at most dtstart + etd
    have hΔn : ((Δ.toNat : Int)) = Δ := Int.toNat_of_nonneg hΔ.le
    have hKmul : etd.toNat / Δ.toNat * Δ.toNat ≤ etd.toNat := Nat.div_mul_le_self _ _
    have hrbound : r ≤ etd.toNat / Δ.toNat := by
      rw [numSlots] at hrK
      omega
    have hmul1 : (r : Int) * Δ ≤ ((etd.toNat / Δ.toNat : Nat) : Int) * Δ := by
      have : ((r : Nat) : Int) ≤ ((etd.toNat / Δ.toNat : Nat) : Int) := by
        exact_mod_cast hrbound
      exact mul_le_mul_of_nonneg_right this hΔ.le
    have hmul2 : ((etd.toNat / Δ.toNat : Nat) : Int) * Δ ≤ etd := by
      calc ((etd.toNat / Δ.toNat : Nat) : Int) * Δ
        = ((etd.toNat / Δ.toNat : Nat) : Int) * ((Δ.toNat : Nat) : Int) := by rw [hΔn]
        _ = ((etd.toNat / Δ.toNat * Δ.toNat : Nat) : Int) := by push_cast; ring
        _ ≤ ((etd.toNat : Nat) : Int) := by exact_mod_cast hKmul
        _ = etd := Int.toNat_of_nonneg hetd
    rw [slotKey] at hkey
    omega

theorem out_of_grid_start_dropped_witness :
    (0 : Int) < 15 ∧ (0 : Int) ≤ 60 ∧
      0 < (sortByStart [(⟨700, 800⟩ : Occ)]).length ∧
      (540 : Int) + 60 < ((sortByStart [(⟨700, 800⟩ : Occ)]).getD 0 default).start_time ∧
      (540 : Int) < ((sortByStart [(⟨700, 800⟩ : Occ)]).getD 0 default).end_time ∧
      cellAt (fillAll 540 15 (numSlots 60 15) [(⟨700, 800⟩ : Occ)]).grid 0 0 ≠ some 0 :=
  ⟨by decide, by decide, by decide, by decide, by decide,
    out_of_grid_start_dropped 540 60 15 [⟨700, 800⟩] 0 0 0 (by decide) (by decide)
      (by decide) (by decide) (by decide)⟩

/-- C2 (amended): occasions are processed in ascending order of start time
(the comparison uses `start_time` only; the sort is a permutation of the
input and is stable, so occasions with equal start times keep their input
order — end times play no role), and each occasion is assigned the
lowest-numbered column not yet occupied in its starting row
(`firstFreeCol` returns an empty column below which every column is
occupied); consequently, of two placements starting in the same row, the
one processed earlier — for equal start times, the one earlier in the
input — receives the strictly lower column number. -/
theorem column_assignment_order (items : List Occ) (s dtstart Δ : Int)
    (Kp : Nat) (row : Row) (pid pid' r c r' c' : Nat)
    (hΔ : 0 < Δ) (hlt : pid < pid')
    (h1 : findCell (fillAll dtstart Δ Kp items).grid pid = some (r, c))
    (h2 : findCell (fillAll dtstart Δ Kp items).grid pid' = some (r', c'))
    (hrr : r = r') :
    (sortByStart items).Pairwise (fun a b => a.start_time ≤ b.start_time) ∧
      (sortByStart items).Perm items ∧
      (sortByStart items).filter (fun o => o.start_time == s) =
        items.filter (fun o => o.start_time == s) ∧
      cellGet row (firstFreeCol row) = none ∧
      ((List.range (firstFreeCol row)).all
        (fun cc => (cellGet row cc).isSome)) = true ∧
      c < c' := by
  obtain ⟨⟨hlen, howner, hthird, hord⟩, _⟩ := fillAll_inv dtstart Δ Kp items hΔ
  refine ⟨sortByStart_pairwise items, sortByStart_perm items,
    sortByStart_filter_stable items s, cellGet_firstFreeCol row, ?_, ?_⟩
  · rw [List.all_eq_true]
    intro cc hcc
    exact cellGet_lt_firstFreeCol row cc (List.mem_range.mp hcc)
  · -- recover the canonical placements behind the two `findCell` results
    have hc1 : cellAt (fillAll dtstart Δ Kp items).grid r c = some pid :=
      findCell_sound _ pid r c h1
    have hc2 : cellAt (fillAll dtstart Δ Kp items).grid r' c' = some pid' :=
      findCell_sound _ pid' r' c' h2
    have hp1 : pid < (sortByStart items).length := howner r c pid hc1
    have hp2 : pid' < (sortByStart items).length := howner r' c' pid' hc2
    rcases hthird pid hp1 with hdrop | ⟨rp, cp, bp, _, hrbp, hbKp, hplp, _⟩
    · exact absurd hc1 (hdrop r c)
    · rcases hthird pid' hp2 with hdrop' | ⟨rq, cq, bq, _, hrbq, hbKq, hplq, _⟩
      · exact absurd hc2 (hdrop' r' c')
      · have hf1 : findCell (fillAll dtstart Δ Kp items).grid pid = some (rp, cp) :=
          findCell_of_placed _ pid cp rp bp hplp hrbp (by omega)
        have hf2 : findCell (fillAll dtstart Δ Kp items).grid pid' = some (rq, cq) :=
          findCell_of_placed _ pid' cq rq bq hplq hrbq (by omega)
        rw [h1] at hf1
        rw [h2] at hf2
        cases hf1
        cases hf2
        exact hord pid pid' c r bp c' r' bq hlt hp2 hplp hrbp hplq hrbq hrr

theorem column_assignment_order_witness :
    (0 : Int) < 15 ∧ 0 < 1 ∧
      findCell (fillAll 0 15 5 [(⟨0, 60⟩ : Occ), ⟨0, 15⟩]).grid 0 = some (0, 0) ∧
      findCell (fillAll 0 15 5 [(⟨0, 60⟩ : Occ), ⟨0, 15⟩]).grid 1 = some (0, 1) ∧
      ((sortByStart [(⟨0, 60⟩ : Occ), ⟨0, 15⟩]).Pairwise
          (fun a b => a.start_time ≤ b.start_time) ∧
        (sortByStart [(⟨0, 60⟩ : Occ), ⟨0, 15⟩]).Perm [⟨0, 60⟩, ⟨0, 15⟩] ∧
        (sortByStart [(⟨0, 60⟩ : Occ), ⟨0, 15⟩]).filter
            (fun o => o.start_time == 0) =
          ([(⟨0, 60⟩ : Occ), ⟨0, 15⟩]).filter (fun o => o.start_time == 0) ∧
        cellGet [] (firstFreeCol []) = none ∧
        ((List.range (firstFreeCol [])).all
          (fun cc => (cellGet [] cc).isSome)) = true ∧
        0 < 1) :=
  ⟨by decide, by decide, by decide, by decide,
    column_assignment_order [⟨0, 60⟩, ⟨0, 15⟩] 0 0 15 5 [] 0 1 0 0 0 1
      (by decide) (by decide) (by decide) (by decide) rfl⟩

end Swingtime
